import Mathlib

/-!
# Verification of the `signals` Go package

Shallow embedding of github.com/goaux/signals: a signal-aware, cancellable
waiting primitive (`Wait`), a cancellable scope that cancels on a signal
(`NotifyContext`), a cancellation-cause type (`Canceled`) and cause
retrieval (`FromContext`).

Concurrency (the `select` statement and the background listener goroutine)
is embedded by an explicit serialized event schedule: the order in which a
blocked `select` observes its channels becoming ready is the order of
events in the schedule.  OS-level signal delivery (`os/signal.Notify`,
`signal.Stop`) is embedded per its documented contract: an empty signal
list relays every signal, a non-empty list relays exactly the listed ones,
and delivery into the channel is a non-blocking send (dropped when the
buffer is full).
-/

namespace Signals

/-- An OS signal (`os.Signal`): an opaque, equality-comparable identifier.
`syscall.Signal` is an integer; we carry the number. -/
structure Sig where
  n : Nat
deriving DecidableEq, Repr

/-- The signal `syscall.SIGINT`. -/
def SIGINT : Sig := ⟨2⟩

/-- The signal `syscall.SIGTERM`. -/
def SIGTERM : Sig := ⟨15⟩

/-- The `Canceled` error type of the package: wraps `context.Canceled`
and records the OS signal that caused the cancellation. -/
structure Canceled where
  signal : Sig
deriving DecidableEq, Repr

/-- The universe of Go `error` values that can appear as a cancellation
cause in this package: `context.Canceled`, `context.DeadlineExceeded`,
the package's `Canceled{signal}`, and opaque caller-supplied causes
(whose unwrap chain contains no `Canceled`). -/
inductive Err where
  | canceled
  | deadlineExceeded
  | sigCanceled (c : Canceled)
  | external (n : Nat)
deriving DecidableEq, Repr

/-- Method `func (s Canceled) Unwrap() error { return context.Canceled }`. -/
def Canceled.Unwrap (_ : Canceled) : Err := Err.canceled

/-- Method `func (s Canceled) Signal() os.Signal { return s.signal }`. -/
def Canceled.Signal (c : Canceled) : Sig := c.signal

/-- One step of Go's `errors.Unwrap`: only `Canceled` has an `Unwrap`
method in this error universe. -/
def Err.unwrap : Err → Option Err
  | .sigCanceled c => some c.Unwrap
  | _ => none

/-- Whether an error value's concrete type is `Canceled` (the direct type
test performed at each step of `errors.As`). -/
def Err.asCanceled : Err → Option Canceled
  | .sigCanceled c => some c
  | _ => none

/-- Go's `errors.As(err, *Canceled)`: test the error itself, then walk the
unwrap chain.  One unwrap step exhausts the chain in this error universe
(`unwrap_chain_flat` below). -/
def errorsAsCanceled (e : Err) : Option Canceled :=
  match e.asCanceled with
  | some c => some c
  | none => (e.unwrap).bind Err.asCanceled

/-- Go's `errors.Is(err, context.Canceled)`: compare the error itself, then
walk the unwrap chain (one step exhausts it, by `unwrap_chain_flat`). -/
def errorsIsCanceled (e : Err) : Bool :=
  e == Err.canceled ||
    (match e.unwrap with
     | some e₂ => e₂ == Err.canceled
     | none => false)

/-- A context (`context.Context`), by its observable state:
`Err()` (`none` while not done), `context.Cause` (`none` while no cause
is recorded), `Deadline()`, `Value(key)`, and the rendered description
returned by `String()`. -/
structure Ctx where
  err : Option Err
  cause : Option Err
  deadline : Option Nat
  value : Nat → Option Nat
  desc : String

/-- Go's `context.Cause(ctx)`: the recorded cause, or `nil`. -/
def contextCause (ctx : Ctx) : Option Err := ctx.cause

/-- The retrieval `FromContext`: `errors.As(context.Cause(ctx), &err)`; on a match
return `(err.Signal(), true)`, otherwise the zero values `(nil, false)`.
`errors.As` applied to a `nil` error reports no match. -/
def FromContext (ctx : Ctx) : Option Sig × Bool :=
  match contextCause ctx with
  | some e =>
    match errorsAsCanceled e with
    | some c => (some c.Signal, true)
    | none => (none, false)
  | none => (none, false)

/-! ## The `Wait` primitive (wait.go)

`Wait` makes a channel of capacity 1, registers it with
`signal.Notify(ch, signals...)`, defers `signal.Stop(ch)`, and runs one
`select` between a channel receive and `<-ctx.Done()`. -/

/-- An event observable by a `Wait` call: the OS raises a signal, or the
context's done notification becomes ready. -/
inductive Event where
  | raise (s : Sig)
  | ctxDone
deriving DecidableEq, Repr

/-- The `os/signal.Notify(ch, signals...)` relay filter: with an empty
registration list every incoming signal is relayed; otherwise exactly the
listed signals are. -/
def relayed (signals : List Sig) (s : Sig) : Bool :=
  signals.isEmpty || signals.contains s

/-- Capacity of the delivery channel, in `Wait` and in `NotifyContext`
alike: `make(chan os.Signal, 1)`. -/
def sigChanCap : Nat := 1

/-- Resource actions taken by a call on its subscription. -/
inductive Action where
  | notifyCh
  | stopCh
deriving DecidableEq, Repr

/-- The `select` of a waiter that is blocked with an empty channel: the
first schedule event that is either the done notification or a relayed
signal decides the branch.  `none` means no relevant event ever occurs
(the call blocks forever). -/
def selectFirst (signals : List Sig) : List Event → Option (Option Sig)
  | [] => none
  | Event.raise s :: rest =>
    if relayed signals s then some (some s) else selectFirst signals rest
  | Event.ctxDone :: _ => some none

/-- The full `Wait` call under a schedule: result paired with the
subscription actions of the completed call (`signal.Notify` at entry, the
deferred `signal.Stop` at exit).  `none` when the call never returns. -/
def WaitRun (signals : List Sig) (sched : List Event) :
    Option (Option Sig × List Action) :=
  (selectFirst signals sched).map fun r => (r, [Action.notifyCh, Action.stopCh])

/-- The call `Wait(ctx, signals...)`: the returned `os.Signal` (`none` embeds Go's
`nil`), when the call returns. -/
def Wait (signals : List Sig) (sched : List Event) : Option (Option Sig) :=
  (WaitRun signals sched).map Prod.fst

/-- The schedule contains a done notification strictly before any relayed
signal delivery (the cancellation outcome of the race). -/
def doneFirst (signals : List Sig) : List Event → Bool
  | [] => false
  | Event.raise s :: rest => !(relayed signals s) && doneFirst signals rest
  | Event.ctxDone :: _ => true

/-! ### Delivery concurrent with subscription (channel buffering)

When signals are raised between `signal.Notify` and the waiter reaching
its `select`, delivery is a non-blocking send into the capacity-1 buffer:
a relayed signal is buffered when there is room and dropped when the
buffer is full.  `bufferPhase` folds such a prefix of events into the
channel contents and the done flag. -/

/-- Channel contents `q` and done-readiness `d` threaded through a prefix
of events occurring before the waiter reaches its `select`. -/
def bufferPhaseAux (signals : List Sig) (q : List Sig) (d : Bool) :
    List Event → List Sig × Bool
  | [] => (q, d)
  | Event.raise s :: rest =>
    if relayed signals s && q.length < sigChanCap
    then bufferPhaseAux signals (q ++ [s]) d rest
    else bufferPhaseAux signals q d rest
  | Event.ctxDone :: rest => bufferPhaseAux signals q true rest

/-- Channel contents and done-readiness after a prefix of events occurring
before the waiter reaches its `select`, starting from the freshly made
empty channel. -/
def bufferPhase (signals : List Sig) (pre : List Event) : List Sig × Bool :=
  bufferPhaseAux signals [] false pre

/-- Behavior of `Wait` when events may precede the `select`: the `select` first looks
at the buffered channel and the done flag; `pick` resolves the
nondeterministic choice when both cases are ready (Go chooses uniformly);
with neither ready it blocks on the remaining schedule. -/
def WaitBuffered (signals : List Sig) (pick : Bool)
    (pre post : List Event) : Option (Option Sig) :=
  match bufferPhase signals pre with
  | (s :: _, true) => some (if pick then some s else none)
  | (s :: _, false) => some (some s)
  | ([], true) => some none
  | ([], false) => selectFirst signals post

/-! ## The `NotifyContext` scope

`NotifyContext(parent, run, signals...)` derives a child context with
`context.WithCancelCause(parent)`, defers `cancel(nil)`, wraps the child
in a `signalCtx`, registers a capacity-1 channel with `signal.Notify`,
defers `signal.Stop`, starts a background listener if `ctx.Err() == nil`
(one `select`: on a channel receive, `cancel(Canceled{signal: sig})`; on
`<-ctx.Done()`, nothing), and returns `run(c)` unchanged. -/

/-- Observations of a `context.Context` (`Done` readiness is equivalent to
`Err() != nil`). -/
def Ctx.Done (c : Ctx) : Bool := c.err.isSome

/-- Method `ctx.Err()`. -/
def Ctx.Err (c : Ctx) : Option Err := c.err

/-- Method `ctx.Deadline()`. -/
def Ctx.Deadline (c : Ctx) : Option Nat := c.deadline

/-- Method `ctx.Value(key)`. -/
def Ctx.Value (c : Ctx) (k : Nat) : Option Nat := c.value k

/-- The child of `context.WithCancelCause(parent)` as first created: not
yet canceled unless the parent already is, in which case it carries the
parent's cause; `Deadline` and `Value` delegate to the parent; its
`cancelCtx` description is the parent's with `".WithCancel"` appended. -/
def childCtx (parent : Ctx) : Ctx :=
  { err := parent.err
    cause := if parent.err.isSome then parent.cause else none
    deadline := parent.deadline
    value := parent.value
    desc := parent.desc ++ ".WithCancel" }

/-- The `signalCtx` wrapper: a struct embedding the derived
`context.Context` plus the watched signal list. -/
structure signalCtx where
  Context : Ctx
  signals : List Sig

/-- Promoted method of the embedded context: `Done`. -/
def signalCtx.Done (c : signalCtx) : Bool := c.Context.Done

/-- Promoted method of the embedded context: `Err`. -/
def signalCtx.Err (c : signalCtx) : Option Err := c.Context.Err

/-- Promoted method of the embedded context: `Deadline`. -/
def signalCtx.Deadline (c : signalCtx) : Option Nat := c.Context.Deadline

/-- Promoted method of the embedded context: `Value`. -/
def signalCtx.Value (c : signalCtx) (k : Nat) : Option Nat := c.Context.Value k

/-- Platform rendering of a signal (`os.Signal.String`), out-of-scope
collaborator: any injective rendering serves. -/
def Sig.String (s : Sig) : String := toString s.n

/-- Space-separated signal names, as built by `signalCtx.String`. -/
def sigListStr : List Sig → String
  | [] => ""
  | [s] => Sig.String s
  | s :: rest => Sig.String s ++ " " ++ sigListStr rest

/-- Method `signalCtx.String`: trims the `".WithCancel"` tail off the embedded
context's description and renders
`signals.NotifyContext(name, [sig ...])`. -/
def signalCtx.String (c : signalCtx) : String :=
  let name := (c.Context.desc).dropRight (".WithCancel".length)
  "signals.NotifyContext(" ++ name ++
    (if c.signals.isEmpty then ""
     else ", [" ++ sigListStr c.signals ++ "]") ++ ")"

/-- An event observable by a `NotifyContext` scope while `run` executes:
the OS raises a signal, or the parent context becomes done (`e` the
resulting child `Err()`, `cause` the propagated cause). -/
inductive NCEvent where
  | raise (s : Sig)
  | parentCancel (e cause : Err)
deriving DecidableEq, Repr

/-- The mutable state of one `NotifyContext` scope. -/
structure NCState where
  /-- The child context's `Err()` (`none` while not canceled). -/
  childErr : Option Err
  /-- The child context's recorded cancellation cause. -/
  childCause : Option Err
  /-- Contents of the capacity-1 delivery channel. -/
  chQueue : List Sig
  /-- Whether `signal.Stop` has run. -/
  stopped : Bool
  /-- The background listener is blocked at its `select`. -/
  listenerActive : Bool
  /-- The signal with which the listener called `cancel(Canceled{...})`,
  if it did. -/
  firedSig : Option Sig
deriving Repr

/-- Scope state right after setup: the child adopts the parent's
cancellation state, the channel is empty and registered, and the listener
goroutine is started exactly when `ctx.Err() == nil`. -/
def NCState.init (parent : Ctx) : NCState :=
  { childErr := parent.err
    childCause := (childCtx parent).cause
    chQueue := []
    stopped := false
    listenerActive := parent.err == none
    firedSig := none }

/-- One event step.  A relayed raise reaching an active listener (blocked
at its `select` with an empty channel) makes it call
`cancel(Canceled{signal: s})` and terminate; otherwise the signal is a
non-blocking send into the channel (dropped when full).  A parent
cancellation cancels the child with the propagated cause if it is not
already canceled, and wakes the listener through `<-ctx.Done()`. -/
def NCStep (signals : List Sig) (st : NCState) : NCEvent → NCState
  | NCEvent.raise s =>
    if st.stopped || !(relayed signals s) then st
    else if st.listenerActive then
      { st with childErr := some Err.canceled
                childCause := some (Err.sigCanceled ⟨s⟩)
                listenerActive := false
                firedSig := some s }
    else if st.chQueue.length < sigChanCap then
      { st with chQueue := st.chQueue ++ [s] }
    else st
  | NCEvent.parentCancel e cause =>
    if st.childErr == none then
      { st with childErr := some e
                childCause := some cause
                listenerActive := false }
    else st

/-- The deferred cleanup when `run` exits, by any path, in LIFO order:
`signal.Stop(ch)`, then `cancel(nil)` — which, if the child is not yet
canceled, cancels it with cause `context.Canceled`, waking the listener
through `<-ctx.Done()`. -/
def NCFinish (st : NCState) : NCState :=
  let st₁ := { st with stopped := true }
  if st₁.childErr == none then
    { st₁ with childErr := some Err.canceled
               childCause := some Err.canceled
               listenerActive := false }
  else { st₁ with listenerActive := false }

/-- The scope state after setup, the events of the schedule, and the
deferred cleanup. -/
def NCExec (parent : Ctx) (signals : List Sig) (events : List NCEvent) :
    NCState :=
  NCFinish (events.foldl (NCStep signals) (NCState.init parent))

/-- The result of the caller-supplied `run`: `nil`, a non-nil error, or
abnormal termination (a panic, which `NotifyContext` propagates after its
defers run). -/
inductive Outcome where
  | ok
  | fail (e : Err)
  | panicked (n : Nat)
deriving DecidableEq, Repr

/-- Construction `c := &signalCtx{Context: ctx, signals: signals}`: the wrapper that
`NotifyContext` hands to `run`. -/
def scopeCtx (parent : Ctx) (signals : List Sig) : signalCtx :=
  { Context := childCtx parent, signals := signals }

/-- The scope operation `NotifyContext`: builds the `signalCtx` over the derived child, lets
the schedule play out while `run` executes, runs the deferred cleanup,
and returns `run`'s result as is. -/
def NotifyContext (parent : Ctx) (run : signalCtx → Outcome)
    (signals : List Sig) (events : List NCEvent) : Outcome × NCState :=
  (run (scopeCtx parent signals), NCExec parent signals events)

/-- The child context as observable after the scope ran under the given
schedule (what `FromContext` inspects afterwards). -/
def finalCtx (parent : Ctx) (signals : List Sig) (events : List NCEvent) :
    Ctx :=
  let st := NCExec parent signals events
  { childCtx parent with err := st.childErr, cause := st.childCause }

/-- Go's `context.Background()`: never canceled, no cause, no deadline, no
values. -/
def background : Ctx :=
  { err := none
    cause := none
    deadline := none
    value := fun _ => none
    desc := "context.Background" }

/-- The schedule's parent cancellation, if any, precedes every relayed
raise: the child's done notification is satisfied before the listener
could ever receive a signal. -/
def doneBeforeRaise (signals : List Sig) : List NCEvent → Bool
  | [] => false
  | NCEvent.raise s :: rest => !(relayed signals s) && doneBeforeRaise signals rest
  | NCEvent.parentCancel _ _ :: _ => true

/-- A schedule event whose propagated cause is not itself a
signal-wrapping `Canceled` (parent-driven cancellation for any ordinary
reason: explicit cancel, deadline, opaque caller cause). -/
def causeOk : NCEvent → Prop
  | NCEvent.parentCancel _ cause => ∀ c, cause ≠ Err.sigCanceled c
  | NCEvent.raise _ => True

/-- Scope invariant tying the recorded cause to the listener: the cause is
signal-wrapping exactly when the listener fired, and once the listener
fired the child is canceled for good. -/
def NCInv (st : NCState) : Prop :=
  (st.firedSig = none → ∀ c, st.childCause ≠ some (Err.sigCanceled c)) ∧
  (∀ s, st.firedSig = some s →
      st.childCause = some (Err.sigCanceled ⟨s⟩) ∧ st.childErr.isSome = true)

/-! ## Theorems -/

/-- In this error universe the unwrap chain has length at most one:
whatever one unwrap step yields cannot be unwrapped again. -/
theorem unwrap_chain_flat (e e' : Err) (h : e.unwrap = some e') :
    e'.unwrap = none := by
  cases e <;> simp [Err.unwrap, Canceled.Unwrap] at h
  subst h
  rfl

/-- The instrumentation of `WaitRun` does not change the returned value. -/
theorem wait_eq_selectFirst (signals : List Sig) (sched : List Event) :
    Wait signals sched = selectFirst signals sched := by
  cases h : selectFirst signals sched <;> simp [Wait, WaitRun, h]

/-- A completed `select` yields either the done branch or a relayed
signal. -/
theorem selectFirst_shape (signals : List Sig) (sched : List Event) :
    ∀ r, selectFirst signals sched = some r →
      r = none ∨ ∃ s, r = some s ∧ relayed signals s = true := by
  induction sched with
  | nil => intro r h; simp [selectFirst] at h
  | cons ev rest ih =>
    intro r h
    cases ev with
    | raise s =>
      by_cases hr : relayed signals s
      · simp [selectFirst, hr] at h
        exact Or.inr ⟨s, h.symm, hr⟩
      · exact ih r (by simpa [selectFirst, hr] using h)
    | ctxDone =>
      simp [selectFirst] at h
      exact Or.inl h.symm

/-- The `select` takes the done branch exactly when the done notification
precedes every relayed signal in the schedule. -/
theorem selectFirst_none_iff (signals : List Sig) (sched : List Event) :
    selectFirst signals sched = some none ↔ doneFirst signals sched = true := by
  induction sched with
  | nil => simp [selectFirst, doneFirst]
  | cons ev rest ih =>
    cases ev with
    | raise s =>
      by_cases hr : relayed signals s
      · simp [selectFirst, doneFirst, hr]
      · simp [selectFirst, doneFirst, hr, ih]
    | ctxDone => simp [selectFirst, doneFirst]

/-- C4: the `Canceled` cause composes with the canonical cancellation
condition: for every signal `sig`, `Canceled{sig}.Unwrap()` is exactly
`context.Canceled` — so the generic `errors.Is(cause, context.Canceled)`
check succeeds on it — while `Canceled{sig}.Signal()` still returns
exactly `sig`. -/
theorem canceled_cause_composes (s : Sig) :
    (Canceled.mk s).Unwrap = Err.canceled ∧
    errorsIsCanceled (Err.sigCanceled (Canceled.mk s)) = true ∧
    (Canceled.mk s).Signal = s := by
  refine ⟨rfl, ?_, rfl⟩
  simp [errorsIsCanceled, Err.unwrap, Canceled.Unwrap]

/-- C9: `FromContext` never raises: it is a total function whose result is
always either `(nil, false)` or `(sig, true)`, and a context with no
recorded cause at all yields `(nil, false)`. -/
theorem fromContext_never_raises (ctx : Ctx) :
    (contextCause ctx = none → FromContext ctx = (none, false)) ∧
    (FromContext ctx = (none, false) ∨
      ∃ s, FromContext ctx = (some s, true)) := by
  constructor
  · intro h; simp [FromContext, h]
  · unfold FromContext
    cases contextCause ctx with
    | none => exact Or.inl rfl
    | some e =>
      cases h : errorsAsCanceled e with
      | none => exact Or.inl (by simp [h])
      | some c => exact Or.inr ⟨c.Signal, by simp [h]⟩

/-- Closed instance of `fromContext_never_raises` at a context that was
never canceled. -/
theorem fromContext_never_raises_witness :
    FromContext background = (none, false) :=
  (fromContext_never_raises background).1 rfl

/-- C2: `NotifyContext` returns exactly the value that `run` returns —
nil or a non-nil error or a propagated abnormal exit — with no wrapping,
substitution or interpretation, and never produces an error of its own. -/
theorem notifyContext_transparent (parent : Ctx) (run : signalCtx → Outcome)
    (signals : List Sig) (events : List NCEvent) :
    (NotifyContext parent run signals events).1 =
      run (scopeCtx parent signals) := rfl

/-- C10: the context handed to `run` is a `signalCtx` wrapper embedding
the derived cancel context; its `Done`, `Err`, `Deadline` and `Value`
observations are exactly those of the derived child context, the wrapping
changing only the textual description. -/
theorem signalCtx_frame (parent : Ctx) (signals : List Sig) :
    (scopeCtx parent signals).Context = childCtx parent ∧
    (scopeCtx parent signals).Done = (childCtx parent).Done ∧
    (scopeCtx parent signals).Err = (childCtx parent).Err ∧
    (scopeCtx parent signals).Deadline = (childCtx parent).Deadline ∧
    ∀ k, (scopeCtx parent signals).Value k = (childCtx parent).Value k :=
  ⟨rfl, rfl, rfl, rfl, fun _ => rfl⟩

/-- C3: a returning `Wait(ctx, S)` has exactly two outcomes — a delivered
subscribed signal, or nil — and it returns nil exactly when the context
becomes done before any signal of S is delivered to its queue; in
particular a context already done at call time yields nil without waiting
for any signal. -/
theorem wait_two_outcomes (signals : List Sig) (sched : List Event) :
    (∀ r, Wait signals sched = some r →
        r = none ∨ ∃ s, r = some s ∧ relayed signals s = true) ∧
    (Wait signals sched = some none ↔ doneFirst signals sched = true) ∧
    (∀ rest, sched = Event.ctxDone :: rest →
        Wait signals sched = some none) := by
  refine ⟨?_, ?_, ?_⟩
  · intro r h
    exact selectFirst_shape signals sched r
      (by rwa [wait_eq_selectFirst] at h)
  · rw [wait_eq_selectFirst]
    exact selectFirst_none_iff signals sched
  · intro rest h
    subst h
    rw [wait_eq_selectFirst]
    rfl

/-- Closed instance of `wait_two_outcomes`: with the done notification
first, even followed by a subscribed signal, `Wait` returns nil. -/
theorem wait_two_outcomes_witness :
    Wait [SIGINT] [Event.ctxDone, Event.raise SIGINT] = some none :=
  (wait_two_outcomes [SIGINT] [Event.ctxDone, Event.raise SIGINT]).2.2
    [Event.raise SIGINT] rfl

/-- C5: for `Wait` and for `NotifyContext` alike, an empty signal
argument list subscribes to all deliverable signals (wildcard relay: any
raised signal is returned by `Wait`, any raised signal reaches the
scope's listener), while a non-empty list monitors exactly the listed
signals (an unlisted raise is invisible to the `select` and to the
scope's state). -/
theorem subscription_wildcard_or_listed (signals : List Sig) (s : Sig)
    (sched : List Event) (st : NCState) :
    relayed [] s = true ∧
    (signals ≠ [] → relayed signals s = signals.contains s) ∧
    Wait [] (Event.raise s :: sched) = some (some s) ∧
    (relayed signals s = false →
      Wait signals (Event.raise s :: sched) = Wait signals sched ∧
      NCStep signals st (NCEvent.raise s) = st) := by
  refine ⟨rfl, ?_, ?_, ?_⟩
  · intro h
    cases signals with
    | nil => exact absurd rfl h
    | cons a l => simp [relayed]
  · rw [wait_eq_selectFirst]
    rfl
  · intro h
    constructor
    · rw [wait_eq_selectFirst, wait_eq_selectFirst]
      simp [selectFirst, h]
    · simp [NCStep, h]

/-- Closed instance of `subscription_wildcard_or_listed`: a non-empty
subscription is exactly membership, and an unlisted signal leaves the
`Wait` select untouched. -/
theorem subscription_wildcard_or_listed_witness :
    relayed [SIGTERM] SIGINT = [SIGTERM].contains SIGINT ∧
    Wait [SIGTERM] [Event.raise SIGINT, Event.ctxDone] =
      Wait [SIGTERM] [Event.ctxDone] := by
  have h := subscription_wildcard_or_listed [SIGTERM] SIGINT [Event.ctxDone]
    ⟨none, none, [], false, false, none⟩
  exact ⟨h.2.1 (by decide), (h.2.2.2 (by decide)).1⟩

/-- The deferred cleanup always runs `signal.Stop`. -/
theorem ncFinish_stopped (st : NCState) : (NCFinish st).stopped = true := by
  unfold NCFinish
  cases h : st.childErr == none <;> simp [h]

/-- C6: every subscription is released on every exit path of the call
that created it: a completed `Wait` always ran `signal.Stop` on its
channel, and a `NotifyContext` scope ends with `signal.Stop` run for any
parent (including one already canceled before registration), any schedule
and any outcome of `run` (normal, error, or abnormal exit). -/
theorem subscription_released (signals : List Sig) (sched : List Event)
    (parent : Ctx) (events : List NCEvent) (run : signalCtx → Outcome) :
    (∀ r log, WaitRun signals sched = some (r, log) → Action.stopCh ∈ log) ∧
    ((NotifyContext parent run signals events).2).stopped = true := by
  constructor
  · intro r log h
    unfold WaitRun at h
    cases hs : selectFirst signals sched with
    | none => rw [hs] at h; simp at h
    | some v =>
      rw [hs] at h
      have h' : (v, [Action.notifyCh, Action.stopCh]) = (r, log) :=
        Option.some.inj h
      have hl : [Action.notifyCh, Action.stopCh] = log :=
        congrArg Prod.snd h'
      rw [← hl]
      simp
  · exact ncFinish_stopped _

/-- Closed instance of `subscription_released`: the log of a completed
`Wait` contains the release. -/
theorem subscription_released_witness :
    Action.stopCh ∈ [Action.notifyCh, Action.stopCh] :=
  (subscription_released [] [Event.ctxDone] background []
    (fun _ => Outcome.ok)).1 none [Action.notifyCh, Action.stopCh] rfl

/-- A full channel stays as it is through further deliveries, and the
done flag stays clear while no done notification occurs. -/
theorem bufferAux_frozen (signals : List Sig) (q : List Sig)
    (pre : List Event) (hq : sigChanCap ≤ q.length)
    (hnd : Event.ctxDone ∉ pre) :
    bufferPhaseAux signals q false pre = (q, false) := by
  induction pre with
  | nil => rfl
  | cons ev rest ih =>
    cases ev with
    | raise s =>
      have hlt : ¬ q.length < sigChanCap := Nat.not_lt.mpr hq
      simp only [bufferPhaseAux]
      rw [if_neg (by simp [hlt])]
      exact ih fun hm => hnd (List.mem_cons_of_mem _ hm)
    | ctxDone => exact absurd (List.mem_cons_self _ _) hnd

/-- A relayed signal raised before the `select`, with no earlier done
notification, ends up buffered: the channel holds the first such signal
and the done flag is clear. -/
theorem bufferAux_finds (signals : List Sig) :
    ∀ pre : List Event, Event.ctxDone ∉ pre →
      (∃ s, Event.raise s ∈ pre ∧ relayed signals s = true) →
      ∃ s, relayed signals s = true ∧
        bufferPhaseAux signals [] false pre = ([s], false) := by
  intro pre
  induction pre with
  | nil =>
    intro _ hs
    obtain ⟨s, hmem, _⟩ := hs
    exact absurd hmem (List.not_mem_nil _)
  | cons ev rest ih =>
    intro hnd hs
    cases ev with
    | ctxDone => exact absurd (List.mem_cons_self _ _) hnd
    | raise s₀ =>
      by_cases hr : relayed signals s₀ = true
      · refine ⟨s₀, hr, ?_⟩
        have h₁ : bufferPhaseAux signals [] false (Event.raise s₀ :: rest)
            = bufferPhaseAux signals [s₀] false rest := by
          simp [bufferPhaseAux, hr, sigChanCap]
        rw [h₁]
        exact bufferAux_frozen signals [s₀] rest (by simp [sigChanCap])
          fun hm => hnd (List.mem_cons_of_mem _ hm)
      · have hr' : relayed signals s₀ = false := by
          simpa using hr
        have h₁ : bufferPhaseAux signals [] false (Event.raise s₀ :: rest)
            = bufferPhaseAux signals [] false rest := by
          simp [bufferPhaseAux, hr']
        rw [h₁]
        apply ih fun hm => hnd (List.mem_cons_of_mem _ hm)
        obtain ⟨s, hmem, hrel⟩ := hs
        rcases List.mem_cons.mp hmem with heq | hmem'
        · injection heq with h
          subst h
          rw [hr'] at hrel
          exact absurd hrel (by simp)
        · exact ⟨s, hmem', hrel⟩

/-- C8: the delivery queue has capacity at least 1, so a relayed signal
raised after registration but before the waiter reaches its `select` —
with the context not yet done — is buffered and returned, never lost,
whatever the race choice and the later schedule. -/
theorem delivery_buffered_not_lost (signals : List Sig) (pick : Bool)
    (pre post : List Event)
    (hnd : Event.ctxDone ∉ pre)
    (hs : ∃ s, Event.raise s ∈ pre ∧ relayed signals s = true) :
    1 ≤ sigChanCap ∧
    ∃ s, relayed signals s = true ∧
      WaitBuffered signals pick pre post = some (some s) := by
  refine ⟨by decide, ?_⟩
  obtain ⟨s, hr, hb⟩ := bufferAux_finds signals pre hnd hs
  refine ⟨s, hr, ?_⟩
  unfold WaitBuffered bufferPhase
  rw [hb]

/-- Closed instance of `delivery_buffered_not_lost`: a signal raised
between registration and the `select` is returned. -/
theorem delivery_buffered_not_lost_witness :
    1 ≤ sigChanCap ∧
    ∃ s, relayed [SIGINT] s = true ∧
      WaitBuffered [SIGINT] true [Event.raise SIGINT] [] = some (some s) :=
  delivery_buffered_not_lost [SIGINT] true [Event.raise SIGINT] []
    (by decide) ⟨SIGINT, by decide, by decide⟩

/-- Once the child is canceled and the listener is gone, no event touches
the child's cancellation state again. -/
theorem ncStep_frozen (signals : List Sig) (st : NCState) (ev : NCEvent)
    (ha : st.listenerActive = false) (he : st.childErr.isSome = true) :
    (NCStep signals st ev).childErr = st.childErr ∧
    (NCStep signals st ev).childCause = st.childCause ∧
    (NCStep signals st ev).firedSig = st.firedSig ∧
    (NCStep signals st ev).listenerActive = false ∧
    (NCStep signals st ev).childErr.isSome = true := by
  have he' : ¬ st.childErr = none := by
    intro h
    rw [h] at he
    simp at he
  cases ev with
  | raise s =>
    by_cases h₁ : (st.stopped || !relayed signals s) = true
    · simp [NCStep, h₁, ha, he]
    · have h₁' : (st.stopped || !relayed signals s) = false := by
        simpa using h₁
      by_cases h₂ : st.chQueue.length < sigChanCap
      · simp [NCStep, h₁', ha, he, h₂]
      · simp [NCStep, h₁', ha, he, h₂]
  | parentCancel e cause =>
    have hc : (st.childErr == none) = false := by
      cases h : st.childErr with
      | none => exact absurd h he'
      | some _ => simp
    simp [NCStep, hc, ha, he]

/-- Lemma `ncStep_frozen`, lifted over a whole schedule. -/
theorem ncFold_frozen (signals : List Sig) (events : List NCEvent) :
    ∀ st : NCState, st.listenerActive = false → st.childErr.isSome = true →
      (events.foldl (NCStep signals) st).childErr = st.childErr ∧
      (events.foldl (NCStep signals) st).childCause = st.childCause ∧
      (events.foldl (NCStep signals) st).firedSig = st.firedSig := by
  induction events with
  | nil => intro st _ _; exact ⟨rfl, rfl, rfl⟩
  | cons ev rest ih =>
    intro st ha he
    have h₁ := ncStep_frozen signals st ev ha he
    have h₂ := ih (NCStep signals st ev) h₁.2.2.2.1 h₁.2.2.2.2
    exact ⟨h₂.1.trans h₁.1, h₂.2.1.trans h₁.2.1, h₂.2.2.trans h₁.2.2.1⟩

/-- The deferred cleanup leaves an already-canceled child's cause and the
fired-signal record alone. -/
theorem ncFinish_frozen (st : NCState) (he : st.childErr.isSome = true) :
    (NCFinish st).childCause = st.childCause ∧
    (NCFinish st).firedSig = st.firedSig := by
  have he' : (st.childErr == none) = false := by
    cases h : st.childErr with
    | none => rw [h] at he; simp at he
    | some e => simp
  unfold NCFinish
  simp [he']

/-- Cleanup never records a signal cause on its own. -/
theorem ncFinish_firedSig (st : NCState) :
    (NCFinish st).firedSig = st.firedSig := by
  unfold NCFinish
  cases h : st.childErr == none <;> simp [h]

/-- If the done notification precedes every relayed raise in the
schedule, the listener never cancels with a signal. -/
theorem ncFold_doneFirst (signals : List Sig) :
    ∀ (events : List NCEvent) (st : NCState),
      st.firedSig = none →
      (st.listenerActive = true → st.childErr = none) →
      doneBeforeRaise signals events = true →
      (events.foldl (NCStep signals) st).firedSig = none := by
  intro events
  induction events with
  | nil => intro st hf _ _; exact hf
  | cons ev rest ih =>
    intro st hf hwf hd
    cases ev with
    | raise s =>
      simp only [doneBeforeRaise, Bool.and_eq_true, Bool.not_eq_true'] at hd
      have hstep : NCStep signals st (NCEvent.raise s) = st := by
        simp [NCStep, hd.1]
      show (rest.foldl (NCStep signals) (NCStep signals st (NCEvent.raise s))).firedSig = none
      rw [hstep]
      exact ih st hf hwf hd.2
    | parentCancel e cause =>
      by_cases hc : st.childErr = none
      · have hstep : NCStep signals st (NCEvent.parentCancel e cause) =
            { st with childErr := some e, childCause := some cause,
                      listenerActive := false } := by
          simp [NCStep, hc]
        show (rest.foldl (NCStep signals)
            (NCStep signals st (NCEvent.parentCancel e cause))).firedSig = none
        rw [hstep]
        exact (ncFold_frozen signals rest
          { st with childErr := some e, childCause := some cause,
                    listenerActive := false } rfl rfl).2.2.trans hf
      · have ha : st.listenerActive = false := by
          cases hl : st.listenerActive with
          | false => rfl
          | true => exact absurd (hwf hl) hc
        have he : st.childErr.isSome = true := by
          cases h : st.childErr with
          | none => exact absurd h hc
          | some _ => rfl
        have hstep : NCStep signals st (NCEvent.parentCancel e cause) = st := by
          have : (st.childErr == none) = false := by
            cases h : st.childErr with
            | none => exact absurd h hc
            | some _ => simp
          simp [NCStep, this]
        show (rest.foldl (NCStep signals)
            (NCStep signals st (NCEvent.parentCancel e cause))).firedSig = none
        rw [hstep]
        exact (ncFold_frozen signals rest st ha he).2.2.trans hf

/-- C7: the background listener is started exactly when the child context
is not already canceled at setup; when the done notification is satisfied
first the listener does nothing further; in particular a scope whose
parent is already canceled never cancels its child with a signal cause —
the child just keeps the inherited cause. -/
theorem listener_start_guard (parent : Ctx) (signals : List Sig)
    (events : List NCEvent) :
    ((NCState.init parent).listenerActive = true ↔ parent.err = none) ∧
    (parent.err.isSome = true →
      (NCExec parent signals events).firedSig = none ∧
      (NCExec parent signals events).childCause = (childCtx parent).cause) ∧
    (doneBeforeRaise signals events = true →
      (NCExec parent signals events).firedSig = none) := by
  refine ⟨by simp [NCState.init], ?_, ?_⟩
  · intro he
    have ha : (NCState.init parent).listenerActive = false := by
      cases h : parent.err with
      | none => rw [h] at he; simp at he
      | some _ => simp [NCState.init, h]
    have he' : (NCState.init parent).childErr.isSome = true := he
    have hfold := ncFold_frozen signals events (NCState.init parent) ha he'
    have hsome : (events.foldl (NCStep signals)
        (NCState.init parent)).childErr.isSome = true := by
      rw [hfold.1]; exact he'
    have hfin := ncFinish_frozen _ hsome
    constructor
    · show (NCFinish _).firedSig = none
      rw [hfin.2, hfold.2.2]
      rfl
    · show (NCFinish _).childCause = (childCtx parent).cause
      rw [hfin.1, hfold.2.1]
      rfl
  · intro hd
    show (NCFinish _).firedSig = none
    rw [ncFinish_firedSig]
    exact ncFold_doneFirst signals events (NCState.init parent) rfl
      (fun h => by simpa [NCState.init] using h) hd

/-- Closed instance of `listener_start_guard`: with the parent canceled
before setup, a raised subscribed signal leaves the inherited cause in
place and no signal cause is ever recorded. -/
theorem listener_start_guard_witness :
    (NCExec ⟨some Err.canceled, some (Err.external 0), none,
        fun _ => none, "p"⟩ [SIGINT] [NCEvent.raise SIGINT]).firedSig = none ∧
    (NCExec ⟨some Err.canceled, some (Err.external 0), none,
        fun _ => none, "p"⟩ [SIGINT] [NCEvent.raise SIGINT]).childCause =
      (childCtx ⟨some Err.canceled, some (Err.external 0), none,
        fun _ => none, "p"⟩).cause :=
  (listener_start_guard _ [SIGINT] [NCEvent.raise SIGINT]).2.1 rfl

/-- The cause/listener invariant `NCInv` is preserved by every schedule
event whose propagated cause is not itself signal-wrapping. -/
theorem ncInv_step (signals : List Sig) (st : NCState) (ev : NCEvent)
    (h : NCInv st) (hev : causeOk ev) : NCInv (NCStep signals st ev) := by
  cases ev with
  | raise s =>
    by_cases h₁ : (st.stopped || !relayed signals s) = true
    · have hstep : NCStep signals st (NCEvent.raise s) = st := by
        simp [NCStep, h₁]
      rw [hstep]
      exact h
    · have h₁' : (st.stopped || !relayed signals s) = false := by
        simpa using h₁
      by_cases hl : st.listenerActive = true
      · have hstep : NCStep signals st (NCEvent.raise s) =
            { st with childErr := some Err.canceled,
                      childCause := some (Err.sigCanceled ⟨s⟩),
                      listenerActive := false, firedSig := some s } := by
          simp [NCStep, h₁', hl]
        rw [hstep]
        constructor
        · intro hf
          simp at hf
        · intro s' hf
          have hss : s = s' := by simpa using hf
          subst hss
          exact ⟨rfl, rfl⟩
      · have hl' : st.listenerActive = false := by simpa using hl
        by_cases h₂ : st.chQueue.length < sigChanCap
        · have hstep : NCStep signals st (NCEvent.raise s) =
              { st with chQueue := st.chQueue ++ [s] } := by
            simp [NCStep, h₁', hl', h₂]
          rw [hstep]
          exact h
        · have hstep : NCStep signals st (NCEvent.raise s) = st := by
            simp [NCStep, h₁', hl', h₂]
          rw [hstep]
          exact h
  | parentCancel e cause =>
    by_cases hc : st.childErr = none
    · have hstep : NCStep signals st (NCEvent.parentCancel e cause) =
          { st with childErr := some e, childCause := some cause,
                    listenerActive := false } := by
        simp [NCStep, hc]
      rw [hstep]
      constructor
      · intro _ c hcc
        exact hev c (Option.some.inj hcc)
      · intro s' hf
        have him := (h.2 s' hf).2
        rw [hc] at him
        simp at him
    · have hc' : (st.childErr == none) = false := by
        cases hh : st.childErr with
        | none => exact absurd hh hc
        | some _ => simp
      have hstep : NCStep signals st (NCEvent.parentCancel e cause) = st := by
        simp [NCStep, hc']
      rw [hstep]
      exact h

/-- Lemma `ncInv_step`, lifted over a whole schedule. -/
theorem ncInv_fold (signals : List Sig) :
    ∀ (events : List NCEvent) (st : NCState), NCInv st →
      (∀ ev ∈ events, causeOk ev) →
      NCInv (events.foldl (NCStep signals) st) := by
  intro events
  induction events with
  | nil => intro st h _; exact h
  | cons ev rest ih =>
    intro st h hev
    exact ih (NCStep signals st ev)
      (ncInv_step signals st ev h (hev ev (List.mem_cons_self _ _)))
      (fun e he => hev e (List.mem_cons_of_mem _ he))

/-- The deferred cleanup preserves the cause/listener invariant: its
neutral `cancel(nil)` records `context.Canceled`, never a signal cause. -/
theorem ncInv_finish (st : NCState) (h : NCInv st) : NCInv (NCFinish st) := by
  by_cases hc : (st.childErr == none) = true
  · have hfin : NCFinish st =
        { st with stopped := true, childErr := some Err.canceled,
                  childCause := some Err.canceled,
                  listenerActive := false } := by
      simp [NCFinish, hc]
    rw [hfin]
    have hf : st.firedSig = none := by
      cases hh : st.firedSig with
      | none => rfl
      | some s =>
        have him := (h.2 s hh).2
        have hcn : st.childErr = none := by simpa using hc
        rw [hcn] at him
        simp at him
    constructor
    · intro _ c
      simp
    · intro s hf'
      have h₂ : st.firedSig = some s := hf'
      rw [hf] at h₂
      exact Option.noConfusion h₂
  · have hc' : (st.childErr == none) = false := by simpa using hc
    have hfin : NCFinish st = { st with stopped := true,
                                        listenerActive := false } := by
      simp [NCFinish, hc']
    rw [hfin]
    exact h

/-- The retrieval `FromContext` answers `(s, true)` exactly on a cause that is the
signal-wrapping `Canceled` for `s`. -/
theorem fromContext_eq_iff (ctx : Ctx) (s : Sig) :
    FromContext ctx = (some s, true) ↔
      contextCause ctx = some (Err.sigCanceled ⟨s⟩) := by
  unfold FromContext contextCause
  cases hc : ctx.cause with
  | none => simp
  | some e =>
    cases e with
    | sigCanceled c =>
      obtain ⟨cs⟩ := c
      simp [errorsAsCanceled, Err.asCanceled, Canceled.Signal]
    | canceled => simp [errorsAsCanceled, Err.asCanceled, Err.unwrap]
    | deadlineExceeded => simp [errorsAsCanceled, Err.asCanceled, Err.unwrap]
    | external n => simp [errorsAsCanceled, Err.asCanceled, Err.unwrap]

/-- C1: `FromContext` returns `(sig, true)` on a context exactly when its
cancellation cause is the signal-wrapping `Canceled` value, and on the
scope's child that happens exactly when the scope's listener canceled it
for a raised subscribed signal `sig`; every other cancellation reason —
parent-driven cancellation with an ordinary cause, a deadline, the
scope's neutral cleanup cancel, or no cancellation at all — yields
`(nil, false)`. -/
theorem fromContext_signal_cause (parent : Ctx) (signals : List Sig)
    (events : List NCEvent) (s : Sig)
    (hparent : ∀ c, parent.cause ≠ some (Err.sigCanceled c))
    (hevents : ∀ ev ∈ events, causeOk ev) :
    (∀ ctx : Ctx, FromContext ctx = (some s, true) ↔
        contextCause ctx = some (Err.sigCanceled ⟨s⟩)) ∧
    (FromContext (finalCtx parent signals events) = (some s, true) ↔
      (NCExec parent signals events).firedSig = some s) := by
  refine ⟨fun ctx => fromContext_eq_iff ctx s, ?_⟩
  have hinit : NCInv (NCState.init parent) := by
    constructor
    · intro _ c
      show (childCtx parent).cause ≠ some (Err.sigCanceled c)
      unfold childCtx
      by_cases hp : parent.err.isSome = true
      · simpa [hp] using hparent c
      · simp [hp]
    · intro s' hf
      simp [NCState.init] at hf
  have hfin : NCInv (NCExec parent signals events) :=
    ncInv_finish _ (ncInv_fold signals events (NCState.init parent) hinit hevents)
  rw [fromContext_eq_iff]
  show contextCause (finalCtx parent signals events) =
      some (Err.sigCanceled ⟨s⟩) ↔ _
  have hcc : contextCause (finalCtx parent signals events) =
      (NCExec parent signals events).childCause := rfl
  rw [hcc]
  constructor
  · intro hc
    cases hf : (NCExec parent signals events).firedSig with
    | none => exact absurd hc (hfin.1 hf ⟨s⟩)
    | some s' =>
      have heq := (hfin.2 s' hf).1
      rw [heq] at hc
      have hss : s' = s := by simpa using hc
      rw [hss]
  · intro hf
    exact (hfin.2 s hf).1

/-- Closed instance of `fromContext_signal_cause`: a scope over the
background context that sees SIGINT raised answers `(SIGINT, true)`. -/
theorem fromContext_signal_cause_witness :
    FromContext (finalCtx background [SIGINT] [NCEvent.raise SIGINT]) =
      (some SIGINT, true) :=
  (fromContext_signal_cause background [SIGINT] [NCEvent.raise SIGINT] SIGINT
    (fun c => by simp [background])
    (fun ev hev => by
      simp at hev
      subst hev
      trivial)).2.mpr rfl

end Signals
